import Mathlib

/-!
Verification development for the electron-forge orchestration layer.

Shallow embedding of:
* the config resolver (lodash deep-merge of shared / maker / runtime configs),
* the import orchestrator (dependency scan, manifest rewrite, .gitignore fix,
  babel-to-compilerc port),
* the package orchestrator (entry-point validation, packager options assembly,
  hook resolution),
* the generic zip maker (output path computation, destination creation).
-/

/-- JSON-like values as manipulated by the orchestration code
(manifest fields, forge configuration, compiler configuration). -/
inductive JValue where
  | str (s : String)
  | num (n : Int)
  | jbool (b : Bool)
  | null
  | arr (xs : List JValue)
  | obj (fields : List (String × JValue))
deriving Repr

/-- JavaScript object property read: first binding of the key wins. -/
def alookup {α : Type} (k : String) : List (String × α) → Option α
  | [] => none
  | (k', v) :: rest => if k = k' then some v else alookup k rest

/-- JavaScript property assignment `o[k] = v`: update the binding in place,
or append the key when absent. -/
def setKey {α : Type} (k : String) (v : α) : List (String × α) → List (String × α)
  | [] => [(k, v)]
  | (k', v') :: rest => if k' = k then (k, v) :: rest else (k', v') :: setKey k v rest

/-- JavaScript `delete o[k]`. -/
def eraseKey {α : Type} (k : String) : List (String × α) → List (String × α)
  | [] => []
  | (k', v') :: rest => if k' = k then eraseKey k rest else (k', v') :: eraseKey k rest

/-- Canonical array-index parse, as JavaScript property keys on arrays
use it: a non-empty all-digit string without a leading zero (except
`"0"` itself) denotes an index; anything else is an ordinary property
name. -/
def parseIdx (k : String) : Option Nat :=
  let cs := k.toList
  if cs ≠ [] ∧ (∀ c ∈ cs, c.isDigit) ∧ (cs = ['0'] ∨ cs.head? ≠ some '0')
  then some (cs.foldl (fun acc c => acc * 10 + (c.toNat - 48)) 0)
  else none

/-- First binding of an object whose key is the canonical string of the
given array index. -/
def alookupIdx (i : Nat) : List (String × JValue) → Option JValue
  | [] => none
  | (k, v) :: rest => if parseIdx k = some i then some v else alookupIdx i rest

/-- One past the largest array index bound by the object (0 when it
binds none). -/
def maxIdxBound (s : List (String × JValue)) : Nat :=
  s.foldl
    (fun acc p =>
      match parseIdx p.1 with
      | some n => max acc (n + 1)
      | none => acc) 0

/-- The elements an object's array-index bindings contribute beyond the
destination array, starting at position `j`: the bound value where one
exists, and `null` for the gaps (JSON renders the holes of a sparse
JavaScript array as `null`). -/
def arrTail (j : Nat) (s : List (String × JValue)) : List JValue :=
  (List.range' j (maxIdxBound s - j)).map (fun t => (alookupIdx t s).getD JValue.null)

mutual

/-- Lodash `merge` semantics as used by the config resolver: plain objects
merge recursively key by key; arrays merge index by index (the longer
array's tail is kept); a plain-object source meeting an array
destination keeps the array and merges the object's array-index
bindings into it element by element (bindings beyond the array extend
it, holes becoming `null`; bindings under non-index keys become expando
properties of the array, which this JSON projection drops); in every
other pairing the source value replaces the destination value
wholesale. -/
def jmerge : JValue → JValue → JValue
  | JValue.obj d, JValue.obj s => JValue.obj (jmergeFields d s)
  | JValue.arr d, JValue.arr s => JValue.arr (jmergeArr d s)
  | JValue.arr d, JValue.obj s => JValue.arr (jmergeArrObjGo d 0 s)
  | _, s => s

def jmergeFields : List (String × JValue) → List (String × JValue) → List (String × JValue)
  | [], s => s
  | (k, v) :: ds, s =>
    (k, match alookup k s with
        | some sv => jmerge v sv
        | none => v) :: jmergeFields ds (eraseKey k s)

def jmergeArr : List JValue → List JValue → List JValue
  | d, [] => d
  | [], s => s
  | d :: ds, s :: ss => jmerge d s :: jmergeArr ds ss

def jmergeArrObjGo : List JValue → Nat → List (String × JValue) → List JValue
  | [], j, s => arrTail j s
  | x :: xs, j, s =>
    (match alookupIdx j s with
     | some sv => jmerge x sv
     | none => x) :: jmergeArrObjGo xs (j + 1) s

end

/-- The fields of a JSON object value (empty for non-objects). -/
def fieldsOf : JValue → List (String × JValue)
  | JValue.obj f => f
  | _ => []

/-- Split a character list at every slash. -/
def splitSlash : List Char → List (List Char)
  | [] => [[]]
  | x :: xs =>
    match splitSlash xs with
    | [] => [[]]
    | cur :: rest => if x = '/' then [] :: cur :: rest else (x :: cur) :: rest

/-- Split a POSIX path string into its non-empty components. -/
def pathSegs (p : String) : List String :=
  ((splitSlash p.toList).map (fun l => String.mk l)).filter (fun c => c ≠ "")

/-- Normalize path components the way node's path module does for an
absolute path: drop `.`, make `..` discard the previous component
(staying at the root when there is none). -/
def normStep (acc : List String) (c : String) : List String :=
  if c = "." then acc else if c = ".." then acc.dropLast else acc ++ [c]

def normSegs (segs : List String) : List String := segs.foldl normStep []

/-- Interleave path components with slashes. -/
def joinWithSlash : List String → String
  | [] => ""
  | [s] => s
  | s :: rest => s ++ "/" ++ joinWithSlash rest

/-- Join components back into an absolute POSIX path string. -/
def joinSegs (segs : List String) : String := "/" ++ joinWithSlash segs

/-- node `path.resolve(base, ...parts)` for an absolute base path. -/
def resolveAbs (base : String) (parts : List String) : String :=
  joinSegs (normSegs (pathSegs base ++ (parts.map pathSegs).flatten))

/-- node `path.dirname` on an absolute path. -/
def dirnameAbs (p : String) : String := joinSegs ((pathSegs p).dropLast)

/-- node `path.basename` on an absolute path. -/
def basenameAbs (p : String) : String := ((pathSegs p).getLast?).getD ""

/-- Does the character list start with the given needle? -/
def startsWithL : List Char → List Char → Bool
  | [], _ => true
  | _ :: _, [] => false
  | a :: as, b :: bs => a = b && startsWithL as bs

/-- Does the needle occur anywhere in the haystack? -/
def containsL (needle : List Char) : List Char → Bool
  | [] => startsWithL needle []
  | b :: bs => startsWithL needle (b :: bs) || containsL needle bs

/-- JavaScript `String.prototype.includes` / `Buffer.prototype.includes`:
substring containment. -/
def strIncludes (hay needle : String) : Bool := containsL needle.toList hay.toList

/-- A project manifest (package.json) as the orchestrators see it. -/
structure Manifest where
  main : Option String
  dependencies : List (String × String)
  devDependencies : List (String × String)
  configForge : Option JValue
  babel : Option JValue
deriving Repr

/-- The project-directory files the import orchestrator reads and writes.
`nodeModules` maps an installed package name to the version recorded in
`node_modules/<name>/package.json`. -/
structure ImportFs where
  dirExists : Bool
  packageJson : Option Manifest
  gitignore : Option String
  babelrc : Option JValue
  compilerc : Option JValue
  nodeModules : List (String × String)
  gitInitialized : Bool
deriving Repr

/-- External side effects the import orchestrator triggers. -/
inductive ImpEffect where
  | gitInit
  | pruneModules
  | removeBinShims
  | removeModule (name : String)
  | installDeps
  | installDevDeps
  | installCompile (version : String)
deriving Repr, DecidableEq

/-- How an import run ends: a process exit, a thrown error, or normal
completion, together with the final file state and effect trace. -/
inductive ImportOutcome where
  | exited (code : Nat) (fs : ImportFs) (trace : List ImpEffect)
  | errored (fs : ImportFs) (trace : List ImpEffect)
  | finished (fs : ImportFs) (trace : List ImpEffect)
deriving Repr

/-- Answers the interactive prompts would return (unused when the run is
not interactive). -/
structure ImportAnswers where
  confirmImport : Bool
  shouldContinue : Bool
  shouldChangeMain : Bool
  newMain : String
  shouldRemoveDependency : String → Bool

/-- The fixed set of known build-tool packages the import orchestrator
offers to remove. -/
def buildToolPackages : List String :=
  ["electron-builder", "electron-download", "electron-installer-debian",
   "electron-installer-dmg", "electron-installer-flatpak", "electron-installer-redhat",
   "electron-osx-sign", "electron-packager", "electron-winstaller"]

/-- One step of the dependency scan loop: the legacy runtime keys
`electron` / `electron-prebuilt` are deleted from both dependency maps
unconditionally and remembered; a known build-tool package is deleted
after a confirmation that interactive mode asks for and non-interactive
mode assumes. -/
def scanStep (interactive : Bool) (confirmRemove : String → Bool)
    (acc : Manifest × Option String) (key : String) : Manifest × Option String :=
  let m := acc.1
  if key = "electron" ∨ key = "electron-prebuilt" then
    ({ m with dependencies := eraseKey key m.dependencies,
              devDependencies := eraseKey key m.devDependencies }, some key)
  else if key ∈ buildToolPackages then
    if ¬ interactive ∨ confirmRemove key then
      ({ m with dependencies := eraseKey key m.dependencies,
                devDependencies := eraseKey key m.devDependencies }, acc.2)
    else acc
  else acc

/-- The dependency scan loop, iterating over the concatenation of the
dependency and dev-dependency key lists captured before any deletion. -/
def scanDeps (interactive : Bool) (confirmRemove : String → Bool) (m : Manifest) :
    Manifest × Option String :=
  ((m.dependencies.map Prod.fst) ++ (m.devDependencies.map Prod.fst)).foldl
    (scanStep interactive confirmRemove) (m, none)

/-- Reading the installed legacy runtime's version from
`node_modules/<name>/package.json` and pinning `electron-prebuilt-compile`
to that version in the dev-dependencies. `none` models the thrown read
error when the installed package is missing. -/
def pinCompile (nodeModules : List (String × String)) (m : Manifest) (name : String) :
    Option (String × Manifest) :=
  (alookup name nodeModules).map fun ver =>
    (ver, { m with devDependencies := setKey "electron-prebuilt-compile" ver m.devDependencies })

/-- The `Fixing .gitignore` step: when the ignore file exists and its
content does not contain the substring `out`, append `"\nout/"`;
otherwise leave it untouched. -/
def fixGitignore : Option String → Option String
  | none => none
  | some content =>
    if strIncludes content "out" then some content
    else some (content ++ "\nout/")

/-- The `Porting original babel config` step: the babel configuration
(inline in the manifest, else parsed from `.babelrc`) is written into
`.compilerc` under the `application/javascript` key via a shallow
`Object.assign` onto whatever `.compilerc` already held (or an empty
object). Without a babel configuration nothing is written. -/
def portBabel (manifestBabel babelrcFile compilercFile : Option JValue) : Option JValue :=
  let babelConfig := match manifestBabel with
    | some b => some b
    | none => babelrcFile
  match babelConfig with
  | none => compilercFile
  | some bc =>
    some (JValue.obj (setKey "application/javascript" bc
      (fieldsOf (compilercFile.getD (JValue.obj [])))))

/-- The tail of the import orchestrator after the install phase: re-read
the manifest, inject the template forge config, rewrite the manifest,
fix `.gitignore`, port the babel config. -/
def importFinish (fs : ImportFs) (tr : List ImpEffect) (tmplForge : JValue) :
    ImportOutcome :=
  match fs.packageJson with
  | none => ImportOutcome.errored fs tr
  | some pj =>
    let pj1 := { pj with configForge := some tmplForge }
    let fs1 := { fs with packageJson := some pj1 }
    let fs2 := { fs1 with gitignore := fixGitignore fs1.gitignore }
    let fs3 := { fs2 with compilerc := portBabel pj1.babel fs2.babelrc fs2.compilerc }
    ImportOutcome.finished fs3 tr

/-- The import orchestrator (the `import` API default export), transcribed
step by step: existence guard, confirmation gate, git init, forge-config
re-import gate, optional main rewrite, dependency scan, version pin,
manifest write, prune / forced deletions / installs, then the finishing
steps. -/
def importRun (fs : ImportFs) (interactive : Bool) (ans : ImportAnswers)
    (tmplForge : JValue) : ImportOutcome :=
  if ¬ fs.dirExists then ImportOutcome.exited 1 fs []
  else
    match fs.packageJson with
    | none => ImportOutcome.exited 1 fs []
    | some pj0 =>
      if interactive ∧ ¬ ans.confirmImport then ImportOutcome.exited 1 fs []
      else
        let fs1 := { fs with gitInitialized := true }
        let tr1 := [ImpEffect.gitInit]
        if pj0.configForge.isSome ∧ interactive ∧ ¬ ans.shouldContinue then
          ImportOutcome.exited 0 fs1 tr1
        else
          let pj1 := if interactive ∧ ans.shouldChangeMain
            then { pj0 with main := some ans.newMain } else pj0
          let scanned := scanDeps interactive ans.shouldRemoveDependency pj1
          match scanned.2 with
          | some en =>
            match pinCompile fs1.nodeModules scanned.1 en with
            | none => ImportOutcome.errored fs1 tr1
            | some (ver, pj2) =>
              let fs2 := { fs1 with packageJson := some pj2 }
              let fs3 := { fs2 with nodeModules := eraseKey en fs2.nodeModules }
              let tr2 := tr1 ++ [ImpEffect.pruneModules, ImpEffect.removeBinShims,
                ImpEffect.removeModule en, ImpEffect.installDeps, ImpEffect.installDevDeps,
                ImpEffect.installCompile ver]
              importFinish fs3 tr2 tmplForge
          | none =>
            let fs2 := { fs1 with packageJson := some scanned.1 }
            importFinish fs2 tr1 tmplForge

/-- File-system effects of the generic zip maker. -/
inductive ZipEffect where
  | ensureParentDir (path : String)
  | zipArchive (srcDir : String) (outPath : String)
deriving Repr, DecidableEq

/-- Modelled from the spec: `ensureFile` from `util/ensure-output` is not
under `src/`; per the spec the maker "must create the destination
directory if absent before writing", so the effect creates the output
path's parent directory in the set of existing directories. -/
def applyZipEffect (dirs : List String) : ZipEffect → List String
  | ZipEffect.ensureParentDir p => if dirnameAbs p ∈ dirs then dirs else dirnameAbs p :: dirs
  | ZipEffect.zipArchive _ _ => dirs

/-- Run a zip-maker effect trace over the set of existing directories. -/
def runZipEffects (dirs : List String) (tr : List ZipEffect) : List String :=
  tr.foldl applyZipEffect dirs

/-- The generic zip maker: archive root is the `.app` bundle on darwin and
the staged directory otherwise; the output path is
`path.resolve(dir, '../make', basename(dir) ++ "-" ++ version ++ ".zip")`;
the destination is ensured before archiving; the path is returned. -/
def zipMaker (dir appName targetPlatform version : String) :
    List ZipEffect × List String :=
  let zipDir := if targetPlatform = "darwin" then resolveAbs dir [appName ++ ".app"] else dir
  let zipPath := resolveAbs dir ["../make", basenameAbs dir ++ "-" ++ version ++ ".zip"]
  ([ZipEffect.ensureParentDir zipPath, ZipEffect.zipArchive zipDir zipPath], [zipPath])

/-- A hook entry in the forge configuration: either a callable (an
abstract token) or a module-name string still to be resolved. -/
inductive Hook where
  | fn (id : Nat)
  | name (s : String)
deriving Repr, DecidableEq

/-- Modelled from the spec: `requireSearch` from `util/require-search` is
not under `src/`; per the spec, a named hook that cannot be resolved to a
callable in the project's module tree "must surface as an error
identifying the unresolved name". The search itself is the abstract
`resolver`. -/
def requireSearchHook (resolver : String → Option Nat) (s : String) : Except String Nat :=
  match resolver s with
  | some f => Except.ok f
  | none => Except.error ("Could not resolve hook: " ++ s)

/-- Resolve one hook entry: callables pass through unchanged, string
entries go through the module search. -/
def resolveHook (resolver : String → Option Nat) : Hook → Except String Nat
  | Hook.fn i => Except.ok i
  | Hook.name s => requireSearchHook resolver s

/-- JavaScript `hooks.map(...)` where the mapped function can throw: the
first thrown error aborts and propagates. -/
def resolveHookList (resolver : String → Option Nat) : List Hook → Except String (List Nat)
  | [] => Except.ok []
  | h :: t =>
    match resolveHook resolver h with
    | Except.error e => Except.error e
    | Except.ok i =>
      match resolveHookList resolver t with
      | Except.error e => Except.error e
      | Except.ok l => Except.ok (i :: l)

/-- `resolveHooks` of the package orchestrator: an absent hook list is the
empty list; otherwise every entry is resolved in order. -/
def resolveHooks (resolver : String → Option Nat) :
    Option (List Hook) → Except String (List Nat)
  | none => Except.ok []
  | some hs => resolveHookList resolver hs

/-- The hooks the package orchestrator wires into the packaging engine:
the fixed built-in hooks, then user-configured hooks. -/
inductive RunnableHook where
  | builtinCleanup
  | builtinCompile
  | builtinStripForge
  | builtinRebuild
  | user (id : Nat)
deriving Repr, DecidableEq

/-- External collaborators of the package orchestrator: directory
resolution, manifest reading, node's module resolution, the loaded forge
configuration, and the project module tree searched for named hooks. -/
structure PackageWorld where
  resolveDir : String → Option String
  readPJ : String → Option Manifest
  requireResolve : String → String
  electronPackagerConfig : List (String × JValue)
  afterCopyHooks : Option (List Hook)
  afterExtractHooks : Option (List Hook)
  afterPruneHooks : Option (List Hook)
  hookResolver : String → Option Nat

/-- What a successful package run hands to the packaging engine: the
scalar options object, the three wired hook lists, and the ordered
lifecycle sequence awaited around the engine call. -/
structure PackageResult where
  opts : List (String × JValue)
  afterCopy : List RunnableHook
  afterExtract : List RunnableHook
  afterPrune : List RunnableHook
  lifecycle : List String
deriving Repr

/-- The preparation spinner label: for display only, the architecture
`all` is shown as the placeholder `ia32`. -/
def spinnerLabel (arch : String) : String :=
  "Preparing to Package Application for arch: " ++ (if arch = "all" then "ia32" else arch)

/-- JavaScript `Object.assign`: shallow, later sources override earlier
bindings key by key. -/
def objAssign (target src : List (String × JValue)) : List (String × JValue) :=
  src.foldl (fun acc p => setKey p.1 p.2 acc) target

/-- The scalar part of the packager options object:
`Object.assign({ asar: false, overwrite: true }, forgeConfig.electronPackagerConfig,
{ dir, arch, platform, out, electronVersion })` followed by
`packageOpts.quiet = true`. The function-valued afterCopy / afterExtract /
afterPrune entries of the same object are modelled separately as hook
lists. A missing `electron-prebuilt-compile` dev-dependency leaves the
`electronVersion` binding undefined, modelled as `null`. -/
def assemblePackageOpts (epc : List (String × JValue))
    (dir arch platform outDir : String) (electronVersion : Option String) :
    List (String × JValue) :=
  setKey "quiet" (JValue.jbool true)
    (objAssign
      (objAssign [("asar", JValue.jbool false), ("overwrite", JValue.jbool true)] epc)
      [("dir", JValue.str dir), ("arch", JValue.str arch),
       ("platform", JValue.str platform), ("out", JValue.str outDir),
       ("electronVersion", match electronVersion with
         | some v => JValue.str v
         | none => JValue.null)])

/-- JavaScript truthiness of a JSON value. -/
def jtruthy : JValue → Bool
  | JValue.str s => decide (s ≠ "")
  | JValue.num n => decide (n ≠ 0)
  | JValue.jbool b => b
  | JValue.null => false
  | JValue.arr _ => true
  | JValue.obj _ => true

/-- The guard `typeof packageOpts.asar === 'object' && packageOpts.asar.unpack`. -/
def asarUnpackBad (opts : List (String × JValue)) : Bool :=
  match alookup "asar" opts with
  | some (JValue.obj f) =>
    match alookup "unpack" f with
    | some v => jtruthy v
    | none => false
  | _ => false

/-- The error message thrown when the manifest's entry point resolves to a
file directly in the project root. -/
def entryPointErrorMsg : String :=
  "The entry point to your application (\"packageJSON.main\") must be in a subfolder not in the top level directory"

/-- The package orchestrator (the `package` API default export): directory
resolution, entry-point validation, options assembly with hook wiring,
the asar.unpack guard, then the lifecycle hooks around the engine call. -/
def packageRun (w : PackageWorld) (dir0 : String) (arch platform : String)
    (outDirOpt : Option String) : Except String PackageResult :=
  let outDir := outDirOpt.getD (resolveAbs dir0 ["out"])
  match w.resolveDir dir0 with
  | none => Except.error "Failed to locate compilable Electron application"
  | some dir =>
    match w.readPJ dir with
    | none => Except.error "Cannot read package.json"
    | some pj =>
      match pj.main with
      | none => Except.error "Path must be a string. Received undefined"
      | some mainRel =>
        if dirnameAbs (w.requireResolve (resolveAbs dir [mainRel])) = dir then
          Except.error entryPointErrorMsg
        else do
          let copyHooks ← resolveHooks w.hookResolver w.afterCopyHooks
          let extractHooks ← resolveHooks w.hookResolver w.afterExtractHooks
          let pruneHooks ← resolveHooks w.hookResolver w.afterPruneHooks
          let opts := assemblePackageOpts w.electronPackagerConfig dir arch platform outDir
            (alookup "electron-prebuilt-compile" pj.devDependencies)
          if asarUnpackBad opts then
            Except.error "electron-compile does not support asar.unpack yet.  Please use asar.unpackDir"
          else
            Except.ok
              { opts := opts,
                afterCopy := [RunnableHook.builtinCleanup, RunnableHook.builtinCompile,
                  RunnableHook.builtinStripForge] ++ copyHooks.map RunnableHook.user,
                afterExtract := extractHooks.map RunnableHook.user,
                afterPrune := RunnableHook.builtinRebuild :: pruneHooks.map RunnableHook.user,
                lifecycle := ["generateAssets", "prePackage", "packager", "postPackage"] }

def fsNoManifest : ImportFs :=
  { dirExists := true, packageJson := none, gitignore := none, babelrc := none,
    compilerc := none, nodeModules := [], gitInitialized := false }

def defaultAnswers : ImportAnswers :=
  { confirmImport := true, shouldContinue := true, shouldChangeMain := false,
    newMain := "", shouldRemoveDependency := fun _ => true }

def pjIndexInRoot : Manifest :=
  { main := some "index.js", dependencies := [], devDependencies := [],
    configForge := none, babel := none }

def worldEntryInRoot : PackageWorld :=
  { resolveDir := fun _ => some "/proj", readPJ := fun _ => some pjIndexInRoot,
    requireResolve := fun p => p, electronPackagerConfig := [],
    afterCopyHooks := none, afterExtractHooks := none, afterPruneHooks := none,
    hookResolver := fun _ => none }

/-- The hook-resolution relation: a callable passes through unchanged, a
string entry resolves through the project module tree. -/
def hookMatches (resolver : String → Option Nat) : Hook → Nat → Prop
  | Hook.fn i, j => j = i
  | Hook.name s, j => resolver s = some j

def babelCfgEx : JValue := JValue.obj [("presets", JValue.arr [JValue.str "es2015"])]

def compilercEx : List (String × JValue) :=
  [("application/javascript", JValue.obj [("passthrough", JValue.jbool true)]),
   ("text/less", JValue.obj [])]

def mElectronDep : Manifest :=
  { main := none, dependencies := [("electron", "^1.4.0")], devDependencies := [],
    configForge := none, babel := none }

def nmElectron : List (String × String) := [("electron", "1.4.13")]

def pinnedEx : Manifest :=
  { main := none, dependencies := [], devDependencies := [("electron-prebuilt-compile", "1.4.13")],
    configForge := none, babel := none }

def pjSubfolderMain : Manifest :=
  { main := some "lib/index.js", dependencies := [],
    devDependencies := [("electron-prebuilt-compile", "1.4.13")],
    configForge := none, babel := none }

def worldAllArch : PackageWorld :=
  { resolveDir := fun _ => some "/proj", readPJ := fun _ => some pjSubfolderMain,
    requireResolve := fun p => p, electronPackagerConfig := [],
    afterCopyHooks := none, afterExtractHooks := none, afterPruneHooks := none,
    hookResolver := fun _ => none }

theorem alookup_setKey {α : Type} (k k' : String) (v : α) (l : List (String × α)) :
    alookup k (setKey k' v l) = if k = k' then some v else alookup k l := by
  induction l with
  | nil => simp [setKey, alookup]
  | cons p rest ih =>
    obtain ⟨kh, vh⟩ := p
    by_cases h1 : kh = k'
    · by_cases h2 : k = k' <;> simp [setKey, h1, alookup, h2]
    · by_cases h2 : k = kh
      · have h3 : ¬ k = k' := fun hc => h1 (h2.symm.trans hc)
        simp [setKey, h1, alookup, h2, h3]
      · simp [setKey, h1, alookup, h2, ih]

theorem alookup_eraseKey {α : Type} (k k' : String) (l : List (String × α)) :
    alookup k (eraseKey k' l) = if k = k' then none else alookup k l := by
  induction l with
  | nil => simp [eraseKey, alookup]
  | cons p rest ih =>
    obtain ⟨kh, vh⟩ := p
    by_cases h1 : kh = k'
    · by_cases h2 : k = kh
      · have h3 : k = k' := h2.trans h1
        rw [h3] at ih
        simp [eraseKey, h1, h3, ih]
      · have h2' : ¬ k = k' := fun hc => h2 (hc.trans h1.symm)
        simp [eraseKey, h1, ih, alookup, h2, h2']
    · by_cases h2 : k = kh
      · have h3 : ¬ k = k' := fun hc => h1 (h2.symm.trans hc)
        simp [eraseKey, h1, alookup, h2, h3]
      · simp [eraseKey, h1, alookup, h2, ih]

/-- C2: when the project directory does not exist or holds no
package.json, the import run exits with status 1, the file state is
returned unchanged, and no external effect has been performed. -/
theorem importRun_missing_manifest (fs : ImportFs) (interactive : Bool)
    (ans : ImportAnswers) (tmpl : JValue)
    (h : fs.dirExists = false ∨ fs.packageJson = none) :
    importRun fs interactive ans tmpl = ImportOutcome.exited 1 fs [] := by
  rcases h with h | h
  · simp [importRun, h]
  · cases hd : fs.dirExists
    · simp [importRun, hd]
    · simp [importRun, hd, h]

/-- C2 witness: a directory without a package.json. -/
theorem importRun_missing_manifest_witness :
    fsNoManifest.packageJson = none
      ∧ importRun fsNoManifest false defaultAnswers JValue.null
        = ImportOutcome.exited 1 fsNoManifest [] :=
  ⟨rfl, importRun_missing_manifest fsNoManifest false defaultAnswers JValue.null (Or.inr rfl)⟩

/-- C4: when the manifest's `main` entry resolves to a file directly in
the project root, the package orchestrator fails with the descriptive
entry-point error and no packaging work is produced. -/
theorem packageRun_entry_in_root (w : PackageWorld) (dir0 arch platform : String)
    (outOpt : Option String) (dir : String) (pj : Manifest) (mainRel : String)
    (h1 : w.resolveDir dir0 = some dir) (h2 : w.readPJ dir = some pj)
    (h3 : pj.main = some mainRel)
    (h4 : dirnameAbs (w.requireResolve (resolveAbs dir [mainRel])) = dir) :
    packageRun w dir0 arch platform outOpt = Except.error entryPointErrorMsg := by
  simp [packageRun, h1, h2, h3, h4]

/-- C4 witness: a project whose `main` is `index.js` in the root. -/
theorem packageRun_entry_in_root_witness :
    packageRun worldEntryInRoot "/proj" "x64" "linux" none
      = Except.error entryPointErrorMsg :=
  packageRun_entry_in_root worldEntryInRoot "/proj" "x64" "linux" none "/proj"
    pjIndexInRoot "index.js" rfl rfl rfl (by decide)

theorem startsWithL_refl (l : List Char) : startsWithL l l = true := by
  induction l with
  | nil => rfl
  | cons a as ih => simp [startsWithL, ih]

theorem containsL_self (l : List Char) : containsL l l = true := by
  cases l with
  | nil => rfl
  | cons a as => simp [containsL, startsWithL, startsWithL_refl]

theorem containsL_append_right (n a b : List Char) (h : containsL n b = true) :
    containsL n (a ++ b) = true := by
  induction a with
  | nil => simpa using h
  | cons x xs ih =>
    cases hn : n with
    | nil => simp [containsL, startsWithL]
    | cons c cs =>
      rw [hn] at ih
      simp [containsL, ih]

theorem strIncludes_append_right (a b n : String) (h : strIncludes b n = true) :
    strIncludes (a ++ b) n = true := by
  unfold strIncludes at h ⊢
  have : (a ++ b).toList = a.toList ++ b.toList := by
    simp [String.toList, String.data_append]
  rw [this]
  exact containsL_append_right _ _ _ h

/-- C8: a hook list containing an unresolvable string entry makes hook
resolution surface an error that names that entry; a successful
resolution pairs the output with the input order-preservingly, passing
callables through unchanged; an absent hook list resolves to the empty
list. -/
theorem resolveHooks_spec (resolver : String → Option Nat) (hs : List Hook) :
    ((∃ s, Hook.name s ∈ hs ∧ resolver s = none) →
      ∃ s msg, resolveHooks resolver (some hs) = Except.error msg
        ∧ Hook.name s ∈ hs ∧ resolver s = none ∧ strIncludes msg s = true)
    ∧ (∀ l, resolveHooks resolver (some hs) = Except.ok l →
        List.Forall₂ (hookMatches resolver) hs l)
    ∧ resolveHooks resolver none = Except.ok [] := by
  refine ⟨?_, ?_, rfl⟩
  · intro hex
    induction hs with
    | nil => simp at hex
    | cons h t ih =>
      cases h with
      | fn i =>
        obtain ⟨s, hmem, hres⟩ := hex
        simp at hmem
        have hex' : ∃ s, Hook.name s ∈ t ∧ resolver s = none := ⟨s, hmem, hres⟩
        obtain ⟨s', msg, herr, hmem', hres', hinc⟩ := ih hex'
        refine ⟨s', msg, ?_, by simp [hmem'], hres', hinc⟩
        simp [resolveHooks, resolveHookList, resolveHook] at herr ⊢
        rw [herr]
      | name s0 =>
        cases hres0 : resolver s0 with
        | none =>
          refine ⟨s0, "Could not resolve hook: " ++ s0, ?_, by simp, hres0, ?_⟩
          · simp [resolveHooks, resolveHookList, resolveHook, requireSearchHook, hres0]
          · exact strIncludes_append_right _ _ _ (by unfold strIncludes; exact containsL_self _)
        | some i0 =>
          obtain ⟨s, hmem, hres⟩ := hex
          have hst : Hook.name s ∈ t := by
            rcases List.mem_cons.mp hmem with heq | ht
            · cases heq
              rw [hres0] at hres; cases hres
            · exact ht
          obtain ⟨s', msg, herr, hmem', hres', hinc⟩ := ih ⟨s, hst, hres⟩
          refine ⟨s', msg, ?_, by simp [hmem'], hres', hinc⟩
          simp [resolveHooks, resolveHookList, resolveHook, requireSearchHook, hres0] at herr ⊢
          rw [herr]
  · intro l hok
    induction hs generalizing l with
    | nil =>
      simp [resolveHooks, resolveHookList] at hok
      simp [← hok]
    | cons h t ih =>
      simp only [resolveHooks, resolveHookList] at hok
      cases hh : resolveHook resolver h with
      | error e => rw [hh] at hok; cases hok
      | ok i =>
        rw [hh] at hok
        cases ht : resolveHookList resolver t with
        | error e => rw [ht] at hok; cases hok
        | ok l' =>
          rw [ht] at hok
          cases hok
          refine List.Forall₂.cons ?_ (ih l' ht)
          cases h with
          | fn j => simp [resolveHook] at hh; simp [hookMatches, hh]
          | name s =>
            simp [resolveHook, requireSearchHook] at hh
            cases hr : resolver s with
            | none => rw [hr] at hh; cases hh
            | some j => rw [hr] at hh; simp at hh; simp [hookMatches, hr, hh]

/-- C8 witness: a callable plus a resolvable name resolve in order; an
unresolvable name surfaces an error containing it. -/
theorem resolveHooks_spec_witness :
    List.Forall₂ (hookMatches (fun s => if s = "myHook" then some 7 else none))
      [Hook.fn 3, Hook.name "myHook"] [3, 7]
    ∧ (∃ s msg, resolveHooks (fun _ => none) (some [Hook.name "missing"])
        = Except.error msg
        ∧ Hook.name s ∈ [Hook.name "missing"]
        ∧ (fun _ => (none : Option Nat)) s = none
        ∧ strIncludes msg s = true) :=
  ⟨(resolveHooks_spec (fun s => if s = "myHook" then some 7 else none)
      [Hook.fn 3, Hook.name "myHook"]).2.1 [3, 7] rfl,
   (resolveHooks_spec (fun _ => none) [Hook.name "missing"]).1
      ⟨"missing", by simp, rfl⟩⟩

/-- C10: porting the babel configuration into `.compilerc` preserves
every top-level key other than `application/javascript` unchanged and
sets `application/javascript` wholesale to the babel configuration,
replacing any previous value of that key rather than merging with
it. -/
theorem portBabel_shallow (mb brc : Option JValue) (bc : JValue)
    (f : List (String × JValue))
    (hsrc : mb = some bc ∨ (mb = none ∧ brc = some bc)) :
    portBabel mb brc (some (JValue.obj f))
      = some (JValue.obj (setKey "application/javascript" bc f))
    ∧ (∀ k, k ≠ "application/javascript" →
        alookup k (setKey "application/javascript" bc f) = alookup k f)
    ∧ alookup "application/javascript" (setKey "application/javascript" bc f)
        = some bc := by
  refine ⟨?_, ?_, ?_⟩
  · rcases hsrc with h | ⟨h1, h2⟩
    · simp [portBabel, h, fieldsOf]
    · simp [portBabel, h1, h2, fieldsOf]
  · intro k hk
    rw [alookup_setKey]
    simp [hk]
  · rw [alookup_setKey]
    simp

/-- C10 witness: a `.compilerc` that already maps
`application/javascript` to a mapping gets it replaced wholesale, and
its other key survives. -/
theorem portBabel_shallow_witness :
    portBabel (some babelCfgEx) none (some (JValue.obj compilercEx))
      = some (JValue.obj [("application/javascript", babelCfgEx),
          ("text/less", JValue.obj [])])
    ∧ alookup "text/less" (setKey "application/javascript" babelCfgEx compilercEx)
        = alookup "text/less" compilercEx
    ∧ alookup "application/javascript"
        (setKey "application/javascript" babelCfgEx compilercEx) = some babelCfgEx := by
  have h := portBabel_shallow (some babelCfgEx) none babelCfgEx compilercEx (Or.inl rfl)
  exact ⟨h.1, h.2.1 "text/less" (by decide), h.2.2⟩

/-- C6 counterexample: the content `about` does not contain `out/`, yet
the code leaves it unchanged instead of appending, because the code
tests for the substring `out`, which `about` contains. -/
theorem fixGitignore_claim_counterexample :
    strIncludes "about" "out/" = false
    ∧ fixGitignore (some "about") = some "about"
    ∧ fixGitignore (some "about") ≠ some ("about" ++ "\nout/") := by
  refine ⟨by decide, by decide, by decide⟩

/-- C6 (amended): the ignore-file step appends `out/` when the substring
`out` is absent (not merely when `out/` is absent), leaves the file
unchanged when `out` occurs — in particular when `out/` occurs — and is
idempotent, so a second import run never appends a duplicate entry; a
missing ignore file is left missing. -/
theorem fixGitignore_spec (content : String) :
    (strIncludes content "out" = false →
      fixGitignore (some content) = some (content ++ "\nout/"))
    ∧ (strIncludes content "out" = true →
      fixGitignore (some content) = some content)
    ∧ fixGitignore (fixGitignore (some content)) = fixGitignore (some content)
    ∧ fixGitignore none = none := by
  refine ⟨fun h => by simp [fixGitignore, h], fun h => by simp [fixGitignore, h], ?_, rfl⟩
  cases h : strIncludes content "out"
  · have h2 : strIncludes (content ++ "\nout/") "out" = true :=
      strIncludes_append_right content "\nout/" "out" (by decide)
    simp [fixGitignore, h, h2]
  · simp [fixGitignore, h]

/-- C6 witness: content without the substring `out` gets `out/`
appended, and a second run changes nothing. -/
theorem fixGitignore_spec_witness :
    fixGitignore (some "node_modules") = some ("node_modules" ++ "\nout/")
    ∧ fixGitignore (fixGitignore (some "node_modules"))
        = fixGitignore (some "node_modules") :=
  ⟨(fixGitignore_spec "node_modules").1 (by decide),
   (fixGitignore_spec "node_modules").2.2.1⟩

theorem alookup_isSome_iff_mem {α : Type} (k : String) (l : List (String × α)) :
    (alookup k l).isSome ↔ k ∈ l.map Prod.fst := by
  induction l with
  | nil => simp [alookup]
  | cons p rest ih =>
    obtain ⟨kh, vh⟩ := p
    by_cases h : k = kh
    · simp [alookup, h]
    · simp [alookup, h, ih]

theorem scanStep_proj (i : Bool) (cf : String → Bool) (acc : Manifest × Option String)
    (key : String) :
    ((scanStep i cf acc key).1.dependencies = acc.1.dependencies
      ∧ (scanStep i cf acc key).1.devDependencies = acc.1.devDependencies)
    ∨ ((scanStep i cf acc key).1.dependencies = eraseKey key acc.1.dependencies
      ∧ (scanStep i cf acc key).1.devDependencies = eraseKey key acc.1.devDependencies) := by
  by_cases h1 : key = "electron" ∨ key = "electron-prebuilt"
  · right; simp [scanStep, h1]
  · by_cases h2 : key ∈ buildToolPackages
    · by_cases h3 : i = false ∨ cf key = true
      · right; simp [scanStep, h1, h2, h3]
      · left; simp [scanStep, h1, h2, h3]
    · left; simp [scanStep, h1, h2]

theorem scanStep_snd (i : Bool) (cf : String → Bool) (acc : Manifest × Option String)
    (key : String) :
    (scanStep i cf acc key).2 = acc.2
    ∨ ((scanStep i cf acc key).2 = some key
        ∧ (key = "electron" ∨ key = "electron-prebuilt")) := by
  by_cases h1 : key = "electron" ∨ key = "electron-prebuilt"
  · right; simp [scanStep, h1]
  · by_cases h2 : key ∈ buildToolPackages
    · by_cases h3 : i = false ∨ cf key = true
      · left; simp [scanStep, h1, h2, h3]
      · left; simp [scanStep, h1, h2, h3]
    · left; simp [scanStep, h1, h2]

theorem scanStep_electron (i : Bool) (cf : String → Bool) (acc : Manifest × Option String)
    (key : String) (h : key = "electron" ∨ key = "electron-prebuilt") :
    (scanStep i cf acc key).1.dependencies = eraseKey key acc.1.dependencies
    ∧ (scanStep i cf acc key).1.devDependencies = eraseKey key acc.1.devDependencies
    ∧ (scanStep i cf acc key).2 = some key := by
  simp [scanStep, h]

theorem scan_foldl_deps (i : Bool) (cf : String → Bool) (keys : List String)
    (acc : Manifest × Option String) (k : String) :
    alookup k ((keys.foldl (scanStep i cf) acc).1.dependencies)
        = alookup k acc.1.dependencies
    ∨ alookup k ((keys.foldl (scanStep i cf) acc).1.dependencies) = none := by
  induction keys generalizing acc with
  | nil => exact Or.inl rfl
  | cons key rest ih =>
    rw [List.foldl_cons]
    rcases ih (scanStep i cf acc key) with h | h
    · rw [h]
      rcases scanStep_proj i cf acc key with ⟨h1, _⟩ | ⟨h1, _⟩
      · exact Or.inl (by rw [h1])
      · rw [h1, alookup_eraseKey]
        by_cases hk : k = key <;> simp [hk]
    · exact Or.inr h

theorem scan_foldl_devDeps (i : Bool) (cf : String → Bool) (keys : List String)
    (acc : Manifest × Option String) (k : String) :
    alookup k ((keys.foldl (scanStep i cf) acc).1.devDependencies)
        = alookup k acc.1.devDependencies
    ∨ alookup k ((keys.foldl (scanStep i cf) acc).1.devDependencies) = none := by
  induction keys generalizing acc with
  | nil => exact Or.inl rfl
  | cons key rest ih =>
    rw [List.foldl_cons]
    rcases ih (scanStep i cf acc key) with h | h
    · rw [h]
      rcases scanStep_proj i cf acc key with ⟨_, h1⟩ | ⟨_, h1⟩
      · exact Or.inl (by rw [h1])
      · rw [h1, alookup_eraseKey]
        by_cases hk : k = key <;> simp [hk]
    · exact Or.inr h

theorem scan_foldl_electron_removed (i : Bool) (cf : String → Bool) (keys : List String)
    (acc : Manifest × Option String) (k : String)
    (hk : k = "electron" ∨ k = "electron-prebuilt") (hin : k ∈ keys) :
    alookup k ((keys.foldl (scanStep i cf) acc).1.dependencies) = none
    ∧ alookup k ((keys.foldl (scanStep i cf) acc).1.devDependencies) = none := by
  induction keys generalizing acc with
  | nil => cases hin
  | cons key rest ih =>
    rw [List.foldl_cons]
    by_cases hkey : key = k
    · subst hkey
      obtain ⟨h1, h2, _⟩ := scanStep_electron i cf acc key hk
      constructor
      · rcases scan_foldl_deps i cf rest (scanStep i cf acc key) key with h | h
        · rw [h, h1, alookup_eraseKey]
          simp
        · exact h
      · rcases scan_foldl_devDeps i cf rest (scanStep i cf acc key) key with h | h
        · rw [h, h2, alookup_eraseKey]
          simp
        · exact h
    · have hin' : k ∈ rest := by
        rcases List.mem_cons.mp hin with h | h
        · exact absurd h.symm hkey
        · exact h
      exact ih (scanStep i cf acc key) hin'

theorem scan_foldl_preserve (i : Bool) (cf : String → Bool) (keys : List String)
    (acc : Manifest × Option String) (k : String)
    (hk1 : ¬ (k = "electron" ∨ k = "electron-prebuilt")) (hk2 : k ∉ buildToolPackages) :
    alookup k ((keys.foldl (scanStep i cf) acc).1.dependencies)
        = alookup k acc.1.dependencies
    ∧ alookup k ((keys.foldl (scanStep i cf) acc).1.devDependencies)
        = alookup k acc.1.devDependencies := by
  induction keys generalizing acc with
  | nil => exact ⟨rfl, rfl⟩
  | cons key rest ih =>
    rw [List.foldl_cons]
    obtain ⟨ihd, ihdd⟩ := ih (scanStep i cf acc key)
    rw [ihd, ihdd]
    by_cases hkey : key = k
    · subst hkey
      have hstep : scanStep i cf acc key = acc := by
        simp [scanStep, hk1, hk2]
      rw [hstep]
      exact ⟨rfl, rfl⟩
    · have hne : ¬ k = key := fun hc => hkey hc.symm
      rcases scanStep_proj i cf acc key with ⟨h1, h2⟩ | ⟨h1, h2⟩
      · rw [h1, h2]
        exact ⟨rfl, rfl⟩
      · rw [h1, h2, alookup_eraseKey, alookup_eraseKey]
        simp [hne]

theorem scan_foldl_snd_electronish (i : Bool) (cf : String → Bool) (keys : List String)
    (acc : Manifest × Option String)
    (hacc : ∀ n, acc.2 = some n → (n = "electron" ∨ n = "electron-prebuilt")) :
    ∀ n, (keys.foldl (scanStep i cf) acc).2 = some n
      → (n = "electron" ∨ n = "electron-prebuilt") := by
  induction keys generalizing acc with
  | nil => exact hacc
  | cons key rest ih =>
    rw [List.foldl_cons]
    refine ih (scanStep i cf acc key) ?_
    intro n hn
    rcases scanStep_snd i cf acc key with h | ⟨h, hel⟩
    · exact hacc n (h ▸ hn)
    · rw [h] at hn
      cases hn
      exact hel

theorem scan_foldl_snd_isSome_mono (i : Bool) (cf : String → Bool) (keys : List String)
    (acc : Manifest × Option String) (h : acc.2.isSome) :
    (keys.foldl (scanStep i cf) acc).2.isSome := by
  induction keys generalizing acc with
  | nil => exact h
  | cons key rest ih =>
    rw [List.foldl_cons]
    refine ih (scanStep i cf acc key) ?_
    rcases scanStep_snd i cf acc key with hs | ⟨hs, _⟩ <;> simp [hs]
    exact h

theorem scan_foldl_snd_present (i : Bool) (cf : String → Bool) (keys : List String)
    (acc : Manifest × Option String) (k : String)
    (hk : k = "electron" ∨ k = "electron-prebuilt") (hin : k ∈ keys) :
    (keys.foldl (scanStep i cf) acc).2.isSome := by
  induction keys generalizing acc with
  | nil => cases hin
  | cons key rest ih =>
    rw [List.foldl_cons]
    by_cases hkey : key = k
    · subst hkey
      obtain ⟨_, _, h3⟩ := scanStep_electron i cf acc key hk
      exact scan_foldl_snd_isSome_mono i cf rest _ (by simp [h3])
    · have hin' : k ∈ rest := by
        rcases List.mem_cons.mp hin with h | h
        · exact absurd h.symm hkey
        · exact h
      exact ih (scanStep i cf acc key) hin'

/-- C3: the dependency scan removes the keys `electron` and
`electron-prebuilt` from both dependency maps regardless of the
interactive flag and the confirmation oracle; every key other than the
legacy runtime keys and the known build tools is untouched; the
detected name is one of the two legacy keys and is detected whenever
either key is present; pinning then records `electron-prebuilt-compile`
at exactly the version read from the installed package. -/
theorem importScan_spec (m : Manifest) (i : Bool) (cf : String → Bool)
    (nm : List (String × String)) :
    (∀ k, (k = "electron" ∨ k = "electron-prebuilt") →
        alookup k (scanDeps i cf m).1.dependencies = none
        ∧ alookup k (scanDeps i cf m).1.devDependencies = none)
    ∧ (∀ k, ¬ (k = "electron" ∨ k = "electron-prebuilt") → k ∉ buildToolPackages →
        alookup k (scanDeps i cf m).1.dependencies = alookup k m.dependencies
        ∧ alookup k (scanDeps i cf m).1.devDependencies = alookup k m.devDependencies)
    ∧ (∀ n, (scanDeps i cf m).2 = some n → (n = "electron" ∨ n = "electron-prebuilt"))
    ∧ (∀ k, (k = "electron" ∨ k = "electron-prebuilt") →
        ((alookup k m.dependencies).isSome ∨ (alookup k m.devDependencies).isSome) →
        (scanDeps i cf m).2.isSome)
    ∧ (∀ n ver pj2, pinCompile nm (scanDeps i cf m).1 n = some (ver, pj2) →
        alookup n nm = some ver
        ∧ alookup "electron-prebuilt-compile" pj2.devDependencies = some ver) := by
  refine ⟨?_, ?_, ?_, ?_, ?_⟩
  · intro k hk
    unfold scanDeps
    by_cases hp : k ∈ (m.dependencies.map Prod.fst ++ m.devDependencies.map Prod.fst)
    · exact scan_foldl_electron_removed i cf _ (m, none) k hk hp
    · rw [List.mem_append] at hp
      push_neg at hp
      constructor
      · rcases scan_foldl_deps i cf _ (m, none) k with h | h
        · rw [h]
          cases hc : alookup k m.dependencies with
          | none => rfl
          | some v =>
            exact absurd ((alookup_isSome_iff_mem k m.dependencies).mp (by simp [hc])) hp.1
        · exact h
      · rcases scan_foldl_devDeps i cf _ (m, none) k with h | h
        · rw [h]
          cases hc : alookup k m.devDependencies with
          | none => rfl
          | some v =>
            exact absurd ((alookup_isSome_iff_mem k m.devDependencies).mp (by simp [hc])) hp.2
        · exact h
  · intro k hk1 hk2
    exact scan_foldl_preserve i cf _ (m, none) k hk1 hk2
  · exact scan_foldl_snd_electronish i cf _ (m, none) (fun n hn => by cases hn)
  · intro k hk hsome
    unfold scanDeps
    rcases hsome with h | h
    · exact scan_foldl_snd_present i cf _ (m, none) k hk
        (List.mem_append.mpr (Or.inl ((alookup_isSome_iff_mem k m.dependencies).mp h)))
    · exact scan_foldl_snd_present i cf _ (m, none) k hk
        (List.mem_append.mpr (Or.inr ((alookup_isSome_iff_mem k m.devDependencies).mp h)))
  · intro n ver pj2 hpin
    cases hnm : alookup n nm with
    | none => rw [pinCompile, hnm] at hpin; cases hpin
    | some v =>
      rw [pinCompile, hnm] at hpin
      simp at hpin
      obtain ⟨hv, hp2⟩ := hpin
      subst hv
      refine ⟨rfl, ?_⟩
      rw [← hp2]
      rw [alookup_setKey]
      simp

/-- C3 witness: a manifest declaring `electron` among its regular
dependencies, scanned in interactive mode with a confirmation oracle
that always declines. -/
theorem importScan_spec_witness :
    alookup "electron" (scanDeps true (fun _ => false) mElectronDep).1.dependencies = none
    ∧ (scanDeps true (fun _ => false) mElectronDep).2.isSome
    ∧ alookup "electron" nmElectron = some "1.4.13"
    ∧ alookup "electron-prebuilt-compile" pinnedEx.devDependencies = some "1.4.13" := by
  obtain ⟨h1, _, _, h4, h5⟩ := importScan_spec mElectronDep true (fun _ => false) nmElectron
  obtain ⟨ha, hb⟩ := h5 "electron" "1.4.13" pinnedEx (by rfl)
  exact ⟨(h1 "electron" (Or.inl rfl)).1,
    h4 "electron" (Or.inl rfl) (Or.inl (by rw [show alookup "electron" mElectronDep.dependencies = some "^1.4.0" from rfl]; rfl)),
    ha, hb⟩

/-- C9: the `electron-prebuilt-compile` pin is written into the
dev-dependencies only: the regular dependencies of the pinned manifest
are exactly those left by the scan, so the regular dependency map gains
no key, even when the legacy runtime was declared there. -/
theorem pin_into_devDeps_only (m : Manifest) (i : Bool) (cf : String → Bool)
    (nm : List (String × String)) (n ver : String) (pj2 : Manifest)
    (hpin : pinCompile nm (scanDeps i cf m).1 n = some (ver, pj2)) :
    pj2.dependencies = (scanDeps i cf m).1.dependencies
    ∧ (∀ k, (alookup k pj2.dependencies).isSome → (alookup k m.dependencies).isSome)
    ∧ alookup "electron-prebuilt-compile" pj2.devDependencies = some ver := by
  cases hnm : alookup n nm with
  | none => rw [pinCompile, hnm] at hpin; cases hpin
  | some v =>
    rw [pinCompile, hnm] at hpin
    simp at hpin
    obtain ⟨hv, hp2⟩ := hpin
    subst hv
    refine ⟨by rw [← hp2], ?_, by rw [← hp2, alookup_setKey]; simp⟩
    intro k hk
    rw [← hp2] at hk
    simp only at hk
    rcases scan_foldl_deps i cf _ (m, none) k with h | h
    · unfold scanDeps at hk
      rw [h] at hk
      exact hk
    · unfold scanDeps at hk
      rw [h] at hk
      cases hk

theorem toList_append (a b : String) : (a ++ b).toList = a.toList ++ b.toList := by
  simp [String.toList, String.data_append]

theorem mk_toList (s : String) : String.mk s.toList = s := rfl

theorem splitSlash_ne_nil (l : List Char) : splitSlash l ≠ [] := by
  cases l with
  | nil => simp [splitSlash]
  | cons x xs =>
    cases h : splitSlash xs with
    | nil => simp [splitSlash, h]
    | cons cur rest =>
      by_cases hx : x = '/' <;> simp [splitSlash, h, hx]

theorem splitSlash_no_slash (l : List Char) (h : ∀ c ∈ l, c ≠ '/') :
    splitSlash l = [l] := by
  induction l with
  | nil => rfl
  | cons x xs ih =>
    have hx : x ≠ '/' := h x (List.mem_cons_self x xs)
    have hxs : splitSlash xs = [xs] := ih (fun c hc => h c (List.mem_cons_of_mem x hc))
    simp [splitSlash, hxs, hx]

theorem splitSlash_append_slash (xs ys : List Char) (h : ∀ c ∈ xs, c ≠ '/') :
    splitSlash (xs ++ '/' :: ys) = xs :: splitSlash ys := by
  induction xs with
  | nil =>
    cases hsy : splitSlash ys with
    | nil => exact absurd hsy (splitSlash_ne_nil ys)
    | cons cur rest => simp [splitSlash, hsy]
  | cons x xs' ih =>
    have hx : x ≠ '/' := h x (List.mem_cons_self x xs')
    have hrec := ih (fun c hc => h c (List.mem_cons_of_mem x hc))
    simp only [List.cons_append, splitSlash, List.append_eq]
    rw [hrec]
    simp [hx]

theorem splitSlash_pieces (l : List Char) :
    ∀ piece ∈ splitSlash l, ∀ ch ∈ piece, ch ≠ '/' := by
  induction l with
  | nil =>
    intro piece hp
    simp [splitSlash] at hp
    simp [hp]
  | cons x xs ih =>
    intro piece hp ch hch
    cases h : splitSlash xs with
    | nil => exact absurd h (splitSlash_ne_nil xs)
    | cons cur rest =>
      rw [h] at ih
      by_cases hx : x = '/'
      · simp [splitSlash, h, hx] at hp
        rcases hp with hp | hp | hp
        · simp [hp] at hch
        · exact ih cur (by simp) ch (hp ▸ hch)
        · exact ih piece (by simp [hp]) ch hch
      · simp [splitSlash, h, hx] at hp
        rcases hp with hp | hp
        · rw [hp] at hch
          rcases List.mem_cons.mp hch with hc | hc
          · rw [hc]; exact hx
          · exact ih cur (by simp) ch hc
        · exact ih piece (by simp [hp]) ch hch

theorem pathSegs_single (s : String) (h : ∀ ch ∈ s.toList, ch ≠ '/') (hne : s ≠ "") :
    pathSegs s = [s] := by
  unfold pathSegs
  rw [splitSlash_no_slash s.toList h]
  simp [mk_toList, hne]

theorem pathSegs_no_slash (p : String) :
    ∀ c ∈ pathSegs p, (∀ ch ∈ c.toList, ch ≠ '/') ∧ c ≠ "" := by
  intro c hc
  unfold pathSegs at hc
  rw [List.mem_filter] at hc
  obtain ⟨hmem, hne⟩ := hc
  rw [List.mem_map] at hmem
  obtain ⟨piece, hpiece, hcp⟩ := hmem
  constructor
  · intro ch hch
    have : c.toList = piece := by rw [← hcp]; simp [String.toList]
    rw [this] at hch
    exact splitSlash_pieces p.toList piece hpiece ch hch
  · simpa using hne

theorem joinWithSlash_toList_cons (c : String) (rest : List String) (hrest : rest ≠ []) :
    (joinWithSlash (c :: rest)).toList = c.toList ++ '/' :: (joinWithSlash rest).toList := by
  cases rest with
  | nil => exact absurd rfl hrest
  | cons d ds =>
    show (c ++ "/" ++ joinWithSlash (d :: ds)).toList = _
    rw [toList_append, toList_append]
    simp

theorem splitSlash_slash_cons (l : List Char) : splitSlash ('/' :: l) = [] :: splitSlash l := by
  cases hs : splitSlash l with
  | nil => exact absurd hs (splitSlash_ne_nil l)
  | cons cur r2 => simp [splitSlash, hs]

theorem splitSlash_join (l : List String) (hne : l ≠ [])
    (h : ∀ c ∈ l, (∀ ch ∈ c.toList, ch ≠ '/') ∧ c ≠ "") :
    splitSlash ((joinWithSlash l).toList) = l.map String.toList := by
  induction l with
  | nil => exact absurd rfl hne
  | cons c rest ih =>
    cases rest with
    | nil =>
      show splitSlash c.toList = [c.toList]
      exact splitSlash_no_slash c.toList (h c (by simp)).1
    | cons d ds =>
      rw [joinWithSlash_toList_cons c (d :: ds) (by simp)]
      rw [splitSlash_append_slash _ _ (h c (by simp)).1]
      rw [ih (by simp) (fun x hx => h x (List.mem_cons_of_mem c hx))]
      rfl

theorem pathSegs_joinSegs (l : List String)
    (h : ∀ c ∈ l, (∀ ch ∈ c.toList, ch ≠ '/') ∧ c ≠ "") :
    pathSegs (joinSegs l) = l := by
  cases l with
  | nil => decide
  | cons c rest =>
    unfold joinSegs pathSegs
    have h0 : ("/" ++ joinWithSlash (c :: rest)).toList
        = '/' :: (joinWithSlash (c :: rest)).toList := by
      rw [toList_append]
      simp
    rw [h0, splitSlash_slash_cons, splitSlash_join (c :: rest) (by simp) h]
    have hcomp : (fun l => String.mk l) ∘ String.toList = id :=
      funext (fun x => mk_toList x)
    rw [List.map_cons, List.map_map, hcomp, List.map_id]
    have h4 : ∀ x ∈ c :: rest, x ≠ "" := fun x hx => (h x hx).2
    rw [List.filter_cons]
    have h5 : (decide (String.mk [] ≠ "")) = false := rfl
    rw [h5]
    simp only [Bool.false_eq_true, if_false]
    exact List.filter_eq_self.mpr (fun a ha => by simp [h4 a ha])

theorem foldl_normStep_no_dots (l : List String)
    (h : ∀ c ∈ l, c ≠ "." ∧ c ≠ "..") :
    ∀ init, l.foldl normStep init = init ++ l := by
  induction l with
  | nil => intro init; simp
  | cons c rest ih =>
    intro init
    rw [List.foldl_cons]
    have hc := h c (by simp)
    have hstep : normStep init c = init ++ [c] := by
      simp [normStep, hc.1, hc.2]
    rw [hstep, ih (fun x hx => h x (List.mem_cons_of_mem c hx))]
    simp

theorem length_append_zip (s : String) : (s ++ ".zip").length = s.length + 4 := by
  rw [String.length_append]
  have h4 : (".zip" : String).length = 4 := rfl
  rw [h4]

theorem append_zip_ne_empty_dot (s : String) :
    s ++ ".zip" ≠ "" ∧ s ++ ".zip" ≠ "." ∧ s ++ ".zip" ≠ ".." := by
  refine ⟨?_, ?_, ?_⟩ <;> intro hc <;>
    have h2 := congrArg String.length hc <;>
    rw [length_append_zip] at h2
  · rw [show ("" : String).length = 0 from rfl] at h2
    omega
  · rw [show ("." : String).length = 1 from rfl] at h2
    omega
  · rw [show (".." : String).length = 2 from rfl] at h2
    omega

theorem basenameAbs_mem (dir : String) (hsegs : pathSegs dir ≠ []) :
    basenameAbs dir ∈ pathSegs dir := by
  unfold basenameAbs
  rw [List.getLast?_eq_getLast_of_ne_nil hsegs]
  exact List.getLast_mem hsegs

/-- C5: the generic zip maker returns exactly the deterministic output
path `<parent-of-dir>/make/<dir-basename>-<version>.zip`, its parent is
the `make` directory next to the staged directory, the effect trace
ensures that directory before archiving (so it is created if absent),
and the archive root is the `.app` bundle on darwin and the staged
directory otherwise. -/
theorem zipMaker_spec (dir appName targetPlatform version : String)
    (hsegs : pathSegs dir ≠ [])
    (hnorm : ∀ c ∈ pathSegs dir, c ≠ "." ∧ c ≠ "..")
    (hver : ∀ ch ∈ version.toList, ch ≠ '/') :
    (zipMaker dir appName targetPlatform version).2
        = [joinSegs ((pathSegs dir).dropLast
            ++ ["make", basenameAbs dir ++ "-" ++ version ++ ".zip"])]
    ∧ dirnameAbs (resolveAbs dir
          ["../make", basenameAbs dir ++ "-" ++ version ++ ".zip"])
        = joinSegs ((pathSegs dir).dropLast ++ ["make"])
    ∧ basenameAbs (resolveAbs dir
          ["../make", basenameAbs dir ++ "-" ++ version ++ ".zip"])
        = basenameAbs dir ++ "-" ++ version ++ ".zip"
    ∧ (zipMaker dir appName targetPlatform version).1
        = [ZipEffect.ensureParentDir (resolveAbs dir
              ["../make", basenameAbs dir ++ "-" ++ version ++ ".zip"]),
           ZipEffect.zipArchive
             (if targetPlatform = "darwin" then resolveAbs dir [appName ++ ".app"] else dir)
             (resolveAbs dir ["../make", basenameAbs dir ++ "-" ++ version ++ ".zip"])]
    ∧ (∀ dirs, dirnameAbs (resolveAbs dir
          ["../make", basenameAbs dir ++ "-" ++ version ++ ".zip"])
        ∈ runZipEffects dirs (zipMaker dir appName targetPlatform version).1) := by
  have hbase := pathSegs_no_slash dir (basenameAbs dir) (basenameAbs_mem dir hsegs)
  have hdash : ("-" : String).toList = ['-'] := rfl
  have hzipl : (".zip" : String).toList = ['.', 'z', 'i', 'p'] := rfl
  set fname := basenameAbs dir ++ "-" ++ version ++ ".zip" with hfdef
  have hfname_noslash : ∀ ch ∈ fname.toList, ch ≠ '/' := by
    intro ch hch
    rw [hfdef, toList_append, toList_append, toList_append, hdash, hzipl] at hch
    simp only [List.mem_append] at hch
    rcases hch with ((hc | hc) | hc) | hc
    · exact hbase.1 ch hc
    · simp at hc
      simp [hc]
    · exact hver ch hc
    · simp at hc
      rcases hc with hc | hc | hc | hc <;> simp [hc]
  have hfname_ne := append_zip_ne_empty_dot (basenameAbs dir ++ "-" ++ version)
  rw [← hfdef] at hfname_ne
  have hsegs_fname : pathSegs fname = [fname] :=
    pathSegs_single _ hfname_noslash hfname_ne.1
  have hflat : (List.map pathSegs ["../make", fname]).flatten
      = ["..", "make", fname] := by
    rw [List.map_cons, List.map_cons, List.map_nil]
    rw [show pathSegs "../make" = ["..", "make"] from by decide, hsegs_fname]
    simp
  have hzp : resolveAbs dir ["../make", fname]
      = joinSegs ((pathSegs dir).dropLast ++ ["make", fname]) := by
    unfold resolveAbs
    rw [hflat]
    unfold normSegs
    rw [List.foldl_append, foldl_normStep_no_dots (pathSegs dir) hnorm []]
    rw [List.nil_append, List.foldl_cons, List.foldl_cons, List.foldl_cons, List.foldl_nil]
    rw [show normStep (pathSegs dir) ".." = (pathSegs dir).dropLast from by simp [normStep]]
    rw [show ∀ l, normStep l "make" = l ++ ["make"] from fun l => by simp [normStep]]
    rw [show ∀ l, normStep l fname = l ++ [fname] from fun l => by
      simp [normStep, hfname_ne.2.1, hfname_ne.2.2]]
    rw [List.append_assoc]
    rfl
  have hcomps : ∀ c ∈ (pathSegs dir).dropLast ++ ["make", fname],
      (∀ ch ∈ c.toList, ch ≠ '/') ∧ c ≠ "" := by
    intro c hc
    rw [List.mem_append] at hc
    rcases hc with hc | hc
    · exact pathSegs_no_slash dir c (List.dropLast_subset _ hc)
    · simp at hc
      rcases hc with hc | hc
      · subst hc
        refine ⟨?_, by decide⟩
        intro ch hch
        rw [show ("make" : String).toList = ['m', 'a', 'k', 'e'] from rfl] at hch
        simp at hch
        rcases hch with h | h | h | h <;> simp [h]
      · subst hc
        exact ⟨hfname_noslash, hfname_ne.1⟩
  have hround := pathSegs_joinSegs _ hcomps
  refine ⟨?_, ?_, ?_, rfl, ?_⟩
  · show [resolveAbs dir ["../make", fname]] = _
    rw [hzp]
  · unfold dirnameAbs
    rw [hzp, hround]
    rw [show (pathSegs dir).dropLast ++ ["make", fname]
        = ((pathSegs dir).dropLast ++ ["make"]) ++ [fname] from by simp]
    rw [List.dropLast_concat]
  · show basenameAbs _ = fname
    rw [hzp]
    unfold basenameAbs
    rw [hround]
    rw [show (pathSegs dir).dropLast ++ ["make", fname]
        = ((pathSegs dir).dropLast ++ ["make"]) ++ [fname] from by simp]
    rw [List.getLast?_concat]
    rfl
  · intro dirs
    show dirnameAbs _ ∈ runZipEffects dirs
      [ZipEffect.ensureParentDir _, ZipEffect.zipArchive _ _]
    unfold runZipEffects
    rw [List.foldl_cons, List.foldl_cons, List.foldl_nil]
    simp only [applyZipEffect]
    by_cases hmem : dirnameAbs (resolveAbs dir ["../make", fname]) ∈ dirs <;>
      simp [hmem]

/-- C5 witness: the spec's example `/tmp/build/MyApp`, version `1.2.3`,
darwin. -/
theorem zipMaker_spec_witness :
    (zipMaker "/tmp/build/MyApp" "MyApp" "darwin" "1.2.3").2
        = ["/tmp/build/make/MyApp-1.2.3.zip"]
    ∧ (zipMaker "/tmp/build/MyApp" "MyApp" "darwin" "1.2.3").1
        = [ZipEffect.ensureParentDir "/tmp/build/make/MyApp-1.2.3.zip",
           ZipEffect.zipArchive "/tmp/build/MyApp/MyApp.app"
             "/tmp/build/make/MyApp-1.2.3.zip"]
    ∧ "/tmp/build/make"
        ∈ runZipEffects [] (zipMaker "/tmp/build/MyApp" "MyApp" "darwin" "1.2.3").1 := by
  have h := zipMaker_spec "/tmp/build/MyApp" "MyApp" "darwin" "1.2.3"
    (by decide) (by decide) (by decide)
  refine ⟨?_, ?_, ?_⟩
  · rw [h.1]
    decide
  · rw [h.2.2.2.1]
    decide
  · have h5 := h.2.2.2.2 []
    rw [show ("/tmp/build/make" : String) = dirnameAbs (resolveAbs "/tmp/build/MyApp"
      ["../make", basenameAbs "/tmp/build/MyApp" ++ "-" ++ "1.2.3" ++ ".zip"]) from by decide]
    exact h5

/-- C9 witness: `electron` declared under regular dependencies; the pin
lands in the dev-dependencies and the regular map stays empty. -/
theorem pin_into_devDeps_only_witness :
    pinnedEx.dependencies = (scanDeps false (fun _ => true) mElectronDep).1.dependencies
    ∧ alookup "electron-prebuilt-compile" pinnedEx.dependencies = none
    ∧ alookup "electron-prebuilt-compile" pinnedEx.devDependencies = some "1.4.13" := by
  have h := pin_into_devDeps_only mElectronDep false (fun _ => true) nmElectron
    "electron" "1.4.13" pinnedEx (by rfl)
  exact ⟨h.1, rfl, h.2.2⟩

theorem packageRun_arch_literal (arch : String) (w : PackageWorld) (dir0 platform : String)
    (outOpt : Option String) (r : PackageResult)
    (h : packageRun w dir0 arch platform outOpt = Except.ok r) :
    alookup "arch" r.opts = some (JValue.str arch) := by
  unfold packageRun at h
  split at h
  · cases h
  · split at h
    · cases h
    · split at h
      · cases h
      · split at h
        · cases h
        · simp only [bind, Except.bind] at h
          split at h
          · cases h
          · split at h
            · cases h
            · split at h
              · cases h
              · split at h
                · cases h
                · cases h
                  simp [assemblePackageOpts, objAssign, alookup_setKey]

/-- C7: the `arch` binding of the assembled packager options always
equals the literal input architecture — also in every successful
orchestrator run and also for the input `all` — while the preparation
spinner label alone substitutes the placeholder `ia32` for `all`. -/
theorem packageOpts_arch_literal (epc : List (String × JValue))
    (dir arch platform outDir : String) (ev : Option String) :
    alookup "arch" (assemblePackageOpts epc dir arch platform outDir ev)
        = some (JValue.str arch)
    ∧ spinnerLabel arch
        = "Preparing to Package Application for arch: "
            ++ (if arch = "all" then "ia32" else arch)
    ∧ spinnerLabel "all" = "Preparing to Package Application for arch: ia32"
    ∧ (∀ w dir0 platform2 outOpt r,
        packageRun w dir0 arch platform2 outOpt = Except.ok r →
        alookup "arch" r.opts = some (JValue.str arch)) := by
  refine ⟨?_, rfl, by decide,
    fun w d p o r h => packageRun_arch_literal arch w d p o r h⟩
  simp [assemblePackageOpts, objAssign, alookup_setKey]

/-- C7 witness: a successful run at architecture `all` whose options
carry `arch = "all"`. -/
theorem packageOpts_arch_literal_witness :
    alookup "arch" (assemblePackageOpts [] "/proj" "all" "linux" "/proj/out" none)
        = some (JValue.str "all")
    ∧ (∃ r, packageRun worldAllArch "/proj" "all" "linux" none = Except.ok r
        ∧ alookup "arch" r.opts = some (JValue.str "all")) :=
  ⟨(packageOpts_arch_literal [] "/proj" "all" "linux" "/proj/out" none).1,
   ⟨_, rfl, (packageOpts_arch_literal [] "/proj" "all" "linux" "/proj/out" none).2.2.2
      worldAllArch "/proj" "linux" none _ rfl⟩⟩
